import Mathlib

/-!
# Verification of the lsl-view streaming buffer and rendering pipeline

A shallow embedding of the core of the `lsl-view` frontend:

* the circular sample buffer maintained by `useStreamData`
  (`src/hooks/useLslStreams.ts`, `onMessage` numeric branch),
* the statistics / rate tracker and the connect-time bookkeeping,
* the marker log for string streams,
* the render-coalescing scheduler (`scheduleRender` + `requestAnimationFrame`),
* the geometry decisions of `TimeSeriesChart.draw`
  (`src/components/TimeSeriesChart.tsx`), including per-lane auto-ranging
  and `fitTextToWidth`.

Floating-point values (timestamps, channel data, wall-clock seconds) are
modelled as rationals; JS numeric arrays become total functions `ℕ → ℚ`
read modulo the buffer size.
-/

set_option autoImplicit false

namespace LslView

/-- Connection state of the WebSocket (`WsState` in `src/lib/types.ts`). -/
inductive WsState
  | connecting
  | open'
  | closed
  | error
deriving DecidableEq

/-- The circular-buffer state kept in refs by `useStreamData`
(`buffersRef`, `tsRef`, `writeHeadRef`, `sampleCountRef`).
`channelBuffers ch i` is `buffersRef.current[ch][i]`; indices outside
`[0, bufferSize)` are never read by the code and are irrelevant here. -/
structure SampleBuffer where
  bufferSize : ℕ
  channelCount : ℕ
  timestamps : ℕ → ℚ
  channelBuffers : ℕ → ℕ → ℚ
  writeHead : ℕ
  sampleCount : ℕ

/-- A freshly (re)allocated buffer: `new Float64Array(bufferSize)` zero-fills,
`writeHeadRef.current = 0`, `sampleCountRef.current = 0`. -/
def freshBuffer (bufferSize channelCount : ℕ) : SampleBuffer where
  bufferSize := bufferSize
  channelCount := channelCount
  timestamps := fun _ => 0
  channelBuffers := fun _ _ => 0
  writeHead := 0
  sampleCount := 0

/-- One accepted numeric write (`onMessage`, numeric branch):
store the timestamp at the head, copy channel `ch` for
`ch < channels.length && ch < buffersRef.current.length`, advance the head
modulo `bufferSize`, saturate `sampleCount` at `bufferSize`. -/
def SampleBuffer.write (b : SampleBuffer) (t : ℚ) (d : List ℚ) : SampleBuffer where
  bufferSize := b.bufferSize
  channelCount := b.channelCount
  timestamps := fun i => if i = b.writeHead then t else b.timestamps i
  channelBuffers := fun ch i =>
    if ch < d.length ∧ ch < b.channelCount ∧ i = b.writeHead then d.getD ch 0
    else b.channelBuffers ch i
  writeHead := (b.writeHead + 1) % b.bufferSize
  sampleCount := min (b.sampleCount + 1) b.bufferSize

/-- A sequence of accepted numeric writes, oldest first. -/
def writeSeq (b : SampleBuffer) (ws : List (ℚ × List ℚ)) : SampleBuffer :=
  ws.foldl (fun acc p => acc.write p.1 p.2) b

theorem writeSeq_append (b : SampleBuffer) (ws : List (ℚ × List ℚ)) (p : ℚ × List ℚ) :
    writeSeq b (ws ++ [p]) = (writeSeq b ws).write p.1 p.2 := by
  simp [writeSeq]

theorem writeSeq_bufferSize (b : SampleBuffer) (ws : List (ℚ × List ℚ)) :
    (writeSeq b ws).bufferSize = b.bufferSize := by
  induction ws using List.reverseRecOn with
  | nil => rfl
  | append_singleton ws p ih => rw [writeSeq_append]; exact ih

theorem writeSeq_channelCount (b : SampleBuffer) (ws : List (ℚ × List ℚ)) :
    (writeSeq b ws).channelCount = b.channelCount := by
  induction ws using List.reverseRecOn with
  | nil => rfl
  | append_singleton ws p ih => rw [writeSeq_append]; exact ih

/-- After `W` writes into a fresh buffer the head and the count are
`W % C` and `min W C`. -/
theorem writeSeq_head_count (C n : ℕ) (ws : List (ℚ × List ℚ)) :
    (writeSeq (freshBuffer C n) ws).writeHead = ws.length % C ∧
    (writeSeq (freshBuffer C n) ws).sampleCount = min ws.length C := by
  induction ws using List.reverseRecOn with
  | nil => simp [writeSeq, freshBuffer]
  | append_singleton ws p ih =>
    rw [writeSeq_append]
    have hbs := writeSeq_bufferSize (freshBuffer C n) ws
    constructor
    · show ((writeSeq (freshBuffer C n) ws).writeHead + 1) % _ = _
      rw [hbs, ih.1]
      show (ws.length % C + 1) % C = _
      have h := (Nat.mod_modEq ws.length C).add_right 1
      simp only [List.length_append, List.length_singleton]
      exact h
    · show min ((writeSeq (freshBuffer C n) ws).sampleCount + 1) _ = _
      rw [hbs, ih.2]
      show min (min ws.length C + 1) C = _
      simp only [List.length_append, List.length_singleton]
      omega

/-- The `j`-th write (0-based) of a sequence into a fresh buffer is still
stored at buffer index `j % C` as long as it is one of the last `C` writes. -/
theorem writeSeq_stored (C n : ℕ) (ws : List (ℚ × List ℚ))
    (j : ℕ) (hj : j < ws.length) (hrecent : ws.length ≤ j + C) :
    (writeSeq (freshBuffer C n) ws).timestamps (j % C) = (ws.getD j (0, [])).1 ∧
    ∀ ch, ch < (ws.getD j (0, [])).2.length → ch < n →
      (writeSeq (freshBuffer C n) ws).channelBuffers ch (j % C)
        = (ws.getD j (0, [])).2.getD ch 0 := by
  induction ws using List.reverseRecOn with
  | nil => simp at hj
  | append_singleton ws p ih =>
    rw [writeSeq_append]
    have hhead : (writeSeq (freshBuffer C n) ws).writeHead = ws.length % C :=
      (writeSeq_head_count C n ws).1
    have hcc : (writeSeq (freshBuffer C n) ws).channelCount = n :=
      writeSeq_channelCount (freshBuffer C n) ws
    rw [List.length_append, List.length_singleton] at hj hrecent
    rcases Nat.lt_or_ge j ws.length with hlt | hge
    · have hne : j % C ≠ ws.length % C := by
        intro heq
        have hdvd : C ∣ ws.length - j := (Nat.modEq_iff_dvd' (Nat.le_of_lt hlt)).mp heq
        have hle : C ≤ ws.length - j := Nat.le_of_dvd (by omega) hdvd
        omega
      have hget : (ws ++ [p]).getD j (0, []) = ws.getD j (0, []) :=
        List.getD_append ws [p] (0, []) j hlt
      rw [hget]
      have := ih hlt (by omega)
      constructor
      · show (if j % C = (writeSeq (freshBuffer C n) ws).writeHead then p.1 else _) = _
        rw [hhead, if_neg hne]
        exact this.1
      · intro ch hch hchn
        show (if ch < p.2.length ∧ ch < (writeSeq (freshBuffer C n) ws).channelCount ∧
              j % C = (writeSeq (freshBuffer C n) ws).writeHead then p.2.getD ch 0 else _) = _
        rw [hhead, if_neg (by tauto)]
        exact this.2 ch hch hchn
    · have hj' : j = ws.length := by omega
      have hget : (ws ++ [p]).getD j (0, []) = p := by
        rw [hj', List.getD_append_right ws [p] (0, []) ws.length (Nat.le_refl _)]
        simp
      rw [hget]
      constructor
      · show (if j % C = (writeSeq (freshBuffer C n) ws).writeHead then p.1 else _) = _
        rw [hhead, hj', if_pos rfl]
      · intro ch hch hchn
        show (if ch < p.2.length ∧ ch < (writeSeq (freshBuffer C n) ws).channelCount ∧
              j % C = (writeSeq (freshBuffer C n) ws).writeHead then p.2.getD ch 0 else _) = _
        rw [hcc, hhead, hj', if_pos ⟨hch, hchn, rfl⟩]

/-- C1: for every capacity `C > 0` and every sequence of `W` numeric writes
into a fresh buffer, afterwards `sampleCount = min W C`,
`writeHead = W % C`, and for every `i < sampleCount` the timestamp and the
channel values stored at buffer index `(writeHead - sampleCount + i) mod C`
are those of the `(W - sampleCount + 1 + i)`-th write (1-based): the valid
samples are the `sampleCount` most recent writes read oldest to newest. -/
theorem ring_buffer_recent_writes (C n : ℕ) (hC : 0 < C) (ws : List (ℚ × List ℚ))
    (hfull : ∀ p ∈ ws, n ≤ p.2.length)
    (b : SampleBuffer) (hb : b = writeSeq (freshBuffer C n) ws) :
    b.sampleCount = min ws.length C ∧
    b.writeHead = ws.length % C ∧
    ∀ i, i < b.sampleCount →
      b.timestamps ((b.writeHead + (C - b.sampleCount) + i) % C)
        = (ws.getD (ws.length - b.sampleCount + i) (0, [])).1 ∧
      ∀ ch, ch < n →
        b.channelBuffers ch ((b.writeHead + (C - b.sampleCount) + i) % C)
          = (ws.getD (ws.length - b.sampleCount + i) (0, [])).2.getD ch 0 := by
  subst hb
  obtain ⟨hhead, hcount⟩ := writeSeq_head_count C n ws
  refine ⟨hcount, hhead, ?_⟩
  intro i hi
  rw [hcount] at hi ⊢
  rw [hhead]
  have hscW : min ws.length C ≤ ws.length := Nat.min_le_left _ _
  have hscC : min ws.length C ≤ C := Nat.min_le_right _ _
  have hj : ws.length - min ws.length C + i < ws.length := by omega
  have hrecent : ws.length ≤ ws.length - min ws.length C + i + C := by omega
  have hidx : (ws.length % C + (C - min ws.length C) + i) % C
      = (ws.length - min ws.length C + i) % C := by
    have h1 : (ws.length % C + (C - min ws.length C) + i) % C
        = (ws.length + (C - min ws.length C) + i) % C :=
      ((Nat.mod_modEq ws.length C).add_right _).add_right _
    have h2 : ws.length + (C - min ws.length C) + i
        = ws.length - min ws.length C + i + C := by omega
    rw [h1, h2, Nat.add_mod_right]
  rw [hidx]
  obtain ⟨hts, hchv⟩ := writeSeq_stored C n ws _ hj hrecent
  refine ⟨hts, ?_⟩
  intro ch hch
  have hmem : ws.getD (ws.length - min ws.length C + i) (0, []) ∈ ws := by
    rw [List.getD_eq_getElem _ _ hj]
    exact List.getElem_mem hj
  exact hchv ch (Nat.lt_of_lt_of_le hch (hfull _ hmem)) hch

/-- Witness for `ring_buffer_recent_writes`: capacity 2, one channel, three
writes; the two valid samples are the last two writes in order. -/
theorem ring_buffer_recent_writes_witness :
    (writeSeq (freshBuffer 2 1) [(1, [10]), (2, [20]), (3, [30])]).sampleCount = 2 ∧
    (writeSeq (freshBuffer 2 1) [(1, [10]), (2, [20]), (3, [30])]).writeHead = 1 ∧
    (writeSeq (freshBuffer 2 1) [(1, [10]), (2, [20]), (3, [30])]).timestamps 1 = 2 ∧
    (writeSeq (freshBuffer 2 1) [(1, [10]), (2, [20]), (3, [30])]).channelBuffers 0 1 = 20 ∧
    (writeSeq (freshBuffer 2 1) [(1, [10]), (2, [20]), (3, [30])]).timestamps 0 = 3 ∧
    (writeSeq (freshBuffer 2 1) [(1, [10]), (2, [20]), (3, [30])]).channelBuffers 0 0 = 30 := by
  have h := ring_buffer_recent_writes 2 1 (by decide) [(1, [10]), (2, [20]), (3, [30])]
    (by intro p hp; fin_cases hp <;> decide) _ rfl
  obtain ⟨hc, hh, hv⟩ := h
  have h0 := hv 0 (by rw [hc]; decide)
  have h1 := hv 1 (by rw [hc]; decide)
  rw [hc, hh] at h0 h1
  refine ⟨hc, hh, ?_, ?_, ?_, ?_⟩
  · simpa using h0.1
  · simpa using h0.2 0 (by decide)
  · simpa using h1.1
  · simpa using h1.2 0 (by decide)

/-- C9: a write whose values list has length `L` stores the timestamp and the
first `min L channelCount` channel values at the current `writeHead`; channel
slots with index `≥ L` or `≥ channelCount` at that index, and every cell at
any other index, are left unchanged; extra values are ignored. -/
theorem write_frame_effect (b : SampleBuffer) (t : ℚ) (d : List ℚ) :
    (b.write t d).timestamps b.writeHead = t ∧
    (∀ ch, ch < d.length → ch < b.channelCount →
      (b.write t d).channelBuffers ch b.writeHead = d.getD ch 0) ∧
    (∀ ch, d.length ≤ ch → ∀ i,
      (b.write t d).channelBuffers ch i = b.channelBuffers ch i) ∧
    (∀ ch, b.channelCount ≤ ch → ∀ i,
      (b.write t d).channelBuffers ch i = b.channelBuffers ch i) ∧
    (∀ i, i ≠ b.writeHead → (b.write t d).timestamps i = b.timestamps i) ∧
    (∀ ch i, i ≠ b.writeHead →
      (b.write t d).channelBuffers ch i = b.channelBuffers ch i) := by
  refine ⟨?_, ?_, ?_, ?_, ?_, ?_⟩
  · show (if b.writeHead = b.writeHead then t else _) = t
    rw [if_pos rfl]
  · intro ch hch hchn
    show (if ch < d.length ∧ ch < b.channelCount ∧ b.writeHead = b.writeHead
          then d.getD ch 0 else _) = _
    rw [if_pos ⟨hch, hchn, rfl⟩]
  · intro ch hch i
    show (if ch < d.length ∧ _ ∧ _ then _ else _) = _
    rw [if_neg (by omega)]
  · intro ch hch i
    show (if _ ∧ ch < b.channelCount ∧ _ then _ else _) = _
    rw [if_neg (by omega)]
  · intro i hi
    show (if i = b.writeHead then t else _) = _
    rw [if_neg hi]
  · intro ch i hi
    show (if _ ∧ _ ∧ i = b.writeHead then _ else _) = _
    rw [if_neg (by tauto)]

/-- Witness for `write_frame_effect`: a short write (1 value, 2 channels)
into a buffer holding one earlier sample. -/
theorem write_frame_effect_witness :
    ((writeSeq (freshBuffer 4 2) [(1, [10, 20])]).write 2 [8]).timestamps 1 = 2 ∧
    ((writeSeq (freshBuffer 4 2) [(1, [10, 20])]).write 2 [8]).channelBuffers 0 1 = 8 ∧
    ((writeSeq (freshBuffer 4 2) [(1, [10, 20])]).write 2 [8]).channelBuffers 1 1
      = (writeSeq (freshBuffer 4 2) [(1, [10, 20])]).channelBuffers 1 1 ∧
    ((writeSeq (freshBuffer 4 2) [(1, [10, 20])]).write 2 [8]).timestamps 0
      = (writeSeq (freshBuffer 4 2) [(1, [10, 20])]).timestamps 0 ∧
    ((writeSeq (freshBuffer 4 2) [(1, [10, 20])]).write 2 [8]).channelBuffers 0 0
      = (writeSeq (freshBuffer 4 2) [(1, [10, 20])]).channelBuffers 0 0 := by
  have hhead : (writeSeq (freshBuffer 4 2) [(1, [10, 20])]).writeHead = 1 := by decide
  have h := write_frame_effect (writeSeq (freshBuffer 4 2) [(1, [10, 20])]) 2 [8]
  rw [hhead] at h
  exact ⟨h.1, by simpa using h.2.1 0 (by decide) (by simp [writeSeq_channelCount, freshBuffer]),
    h.2.2.1 1 (by decide) 1, h.2.2.2.2.1 0 (by decide), h.2.2.2.2.2 0 0 (by decide)⟩

/-- Live statistics (`StreamStatistics` in `src/lib/types.ts`), kept in
`statsRef`. -/
structure StreamStatistics where
  actualSampleRate : ℕ
  totalSamples : ℕ
  latestTimestamp : ℚ
  connectionUptime : ℚ
deriving DecidableEq

/-- The per-stream mutable bookkeeping of `useStreamData` other than the
sample buffer: `statsRef`, `connectTimeRef` and `rateWindowRef`. -/
structure StreamState where
  stats : StreamStatistics
  connectTime : ℚ
  rateWindow : List ℚ
deriving DecidableEq

/-- Initial ref values: stats all zero, `connectTimeRef.current = 0`,
empty rate window. -/
def initialStreamState : StreamState where
  stats := ⟨0, 0, 0, 0⟩
  connectTime := 0
  rateWindow := []

/-- Rolling 1-second rate window update (`onMessage`): push `now`, then
shift entries from the front while they are older than `now - 1`. -/
def rateStep (now : ℚ) (q : List ℚ) : List ℚ :=
  (q ++ [now]).dropWhile (fun x => decide (x < now - 1))

/-- The statistics update performed by `onMessage` on an accepted numeric
write with LSL timestamp `t` arriving at wall-clock time `now`
(`performance.now() / 1000`). -/
def statsOnWrite (st : StreamState) (t now : ℚ) : StreamState where
  stats :=
    { actualSampleRate := (rateStep now st.rateWindow).length
      totalSamples := st.stats.totalSamples + 1
      latestTimestamp := t
      connectionUptime :=
        if 0 < st.connectTime then now - st.connectTime
        else st.stats.connectionUptime }
  connectTime := st.connectTime
  rateWindow := rateStep now st.rateWindow

/-- The connect-time bookkeeping executed on each render of `useStreamData`
when the WebSocket state is observed: set `connectTimeRef` on the first
observation of `open`, clear it when `closed` is observed. -/
def observeWsState (st : StreamState) (s : WsState) (now : ℚ) : StreamState :=
  let st1 :=
    if s = WsState.open' ∧ st.connectTime = 0 then { st with connectTime := now } else st
  if s = WsState.closed then { st1 with connectTime := 0 } else st1

/-- Counterexample to C3: observing the `error` state (a transition out of
`open`) resets nothing — the statistics keep their values and the recorded
connect time is untouched. -/
theorem stats_reset_counterexample :
    (observeWsState ⟨⟨3, 7, 2, 4⟩, 5, [1]⟩ WsState.error 9).stats.totalSamples = 7 ∧
    (observeWsState ⟨⟨3, 7, 2, 4⟩, 5, [1]⟩ WsState.error 9).stats.actualSampleRate = 3 ∧
    (observeWsState ⟨⟨3, 7, 2, 4⟩, 5, [1]⟩ WsState.error 9).connectTime = 5 := by
  decide

/-- C3 as amended: observing a non-open state never resets the statistics
fields; only the recorded connect wall time is cleared, and only when the
observed state is `closed` — observing `connecting` or `error` leaves the
whole state unchanged. -/
theorem connect_time_cleared_on_closed_only (st : StreamState) (s : WsState) (now : ℚ) :
    (observeWsState st s now).stats = st.stats ∧
    (observeWsState st s now).rateWindow = st.rateWindow ∧
    (s = WsState.closed → (observeWsState st s now).connectTime = 0) ∧
    (s = WsState.connecting ∨ s = WsState.error → observeWsState st s now = st) := by
  cases s <;> by_cases hc : st.connectTime = 0 <;>
    simp [observeWsState, hc]

/-- Witness for `connect_time_cleared_on_closed_only` at concrete states. -/
theorem connect_time_cleared_on_closed_only_witness :
    (observeWsState ⟨⟨3, 7, 2, 4⟩, 5, [1]⟩ WsState.closed 9).connectTime = 0 ∧
    observeWsState ⟨⟨3, 7, 2, 4⟩, 5, [1]⟩ WsState.connecting 9 = ⟨⟨3, 7, 2, 4⟩, 5, [1]⟩ := by
  exact ⟨(connect_time_cleared_on_closed_only ⟨⟨3, 7, 2, 4⟩, 5, [1]⟩ WsState.closed 9).2.2.1 rfl,
    (connect_time_cleared_on_closed_only ⟨⟨3, 7, 2, 4⟩, 5, [1]⟩ WsState.connecting 9).2.2.2
      (Or.inl rfl)⟩

theorem statsOnWrite_connectTime (st : StreamState) (t now : ℚ) :
    (statsOnWrite st t now).connectTime = st.connectTime := rfl

theorem statsFold_connectTime (writes : List (ℚ × ℚ)) (st : StreamState) :
    (writes.foldl (fun s p => statsOnWrite s p.1 p.2) st).connectTime = st.connectTime := by
  induction writes generalizing st with
  | nil => rfl
  | cons p tl ih => exact ih (statsOnWrite st p.1 p.2)

/-- Counterexample to C4: the connection is observed open at wall time 10,
the first sample is accepted at wall time 12, a second at 13.  The code
reports `connectionUptime = 3` (measured from the open observation), while
the claim predicts `13 - 12 = 1` (measured from the first sample). -/
theorem connection_uptime_counterexample :
    (statsOnWrite (statsOnWrite
        (observeWsState initialStreamState WsState.open' 10) 100 12) 101 13).stats.connectionUptime
      = 3 ∧ ((3 : ℚ) ≠ 13 - 12) := by
  constructor
  · simp [statsOnWrite, observeWsState, initialStreamState]
    norm_num
  · norm_num

/-- C4 as amended: after the open state is observed at wall time `tOpen > 0`
(with no connect time recorded), every subsequent accepted write at wall
time `now` reports `connectionUptime = now - tOpen` — the anchor is the wall
time at which the open state was observed, not the first sample's arrival. -/
theorem connection_uptime_from_open_observation (st : StreamState)
    (hc : st.connectTime = 0) (tOpen : ℚ) (hOpen : 0 < tOpen)
    (writes : List (ℚ × ℚ)) (hne : writes ≠ []) :
    (writes.foldl (fun s p => statsOnWrite s p.1 p.2)
        (observeWsState st WsState.open' tOpen)).stats.connectionUptime
      = (writes.getLast hne).2 - tOpen := by
  have hct : (observeWsState st WsState.open' tOpen).connectTime = tOpen := by
    simp [observeWsState, hc]
  induction writes using List.reverseRecOn with
  | nil => exact absurd rfl hne
  | append_singleton ws p ih =>
    rw [List.foldl_append]
    show (statsOnWrite _ p.1 p.2).stats.connectionUptime = _
    have h1 : (ws.foldl (fun s q => statsOnWrite s q.1 q.2)
        (observeWsState st WsState.open' tOpen)).connectTime = tOpen := by
      rw [statsFold_connectTime]; exact hct
    show (if 0 < (ws.foldl (fun s q => statsOnWrite s q.1 q.2)
        (observeWsState st WsState.open' tOpen)).connectTime then _ else _) = _
    rw [h1, if_pos hOpen, List.getLast_append_singleton]

/-- Witness for `connection_uptime_from_open_observation`: open observed at
10, writes at wall times 12 and 13; uptime is 3. -/
theorem connection_uptime_from_open_observation_witness :
    (([((100 : ℚ), (12 : ℚ)), (101, 13)]).foldl (fun s p => statsOnWrite s p.1 p.2)
        (observeWsState initialStreamState WsState.open' 10)).stats.connectionUptime
      = 13 - 10 := by
  have h := connection_uptime_from_open_observation initialStreamState rfl 10 (by norm_num)
    [((100 : ℚ), (12 : ℚ)), (101, 13)] (by simp)
  exact h

/-- On a sorted queue, evicting from the front everything older than the
cutoff is the same as filtering the whole queue by the cutoff. -/
theorem dropWhile_lt_eq_filter_le (c : ℚ) (l : List ℚ) (hs : l.Sorted (· ≤ ·)) :
    l.dropWhile (fun x => decide (x < c)) = l.filter (fun x => decide (c ≤ x)) := by
  induction l with
  | nil => rfl
  | cons a l ih =>
    rw [List.sorted_cons] at hs
    by_cases hac : a < c
    · rw [List.dropWhile_cons_of_pos (by simpa using hac),
        List.filter_cons_of_neg (by simpa using not_le.mpr hac)]
      exact ih hs.2
    · rw [List.dropWhile_cons_of_neg (by simpa using hac),
        List.filter_cons_of_pos (by simpa using not_lt.mp hac)]
      have : List.filter (fun x => decide (c ≤ x)) l = l :=
        List.filter_eq_self.mpr fun x hx => by
          simpa using le_trans (not_lt.mp hac) (hs.1 x hx)
      rw [this]

/-- Folding the rate-window update over a non-decreasing run of arrival
times, last time `m`, keeps exactly the times `≥ m - 1`. -/
theorem foldl_rateStep_sorted (ws : List ℚ) (m : ℚ) (hle : ∀ x ∈ ws, x ≤ m)
    (hs : ws.Sorted (· ≤ ·)) :
    ((ws ++ [m]).foldl (fun q x => rateStep x q) [])
      = (ws ++ [m]).filter (fun x => decide (m - 1 ≤ x)) := by
  induction ws using List.reverseRecOn generalizing m with
  | nil =>
    have h1 : ¬ (m < m - 1) := by linarith
    have h2 : m - 1 ≤ m := by linarith
    simp [rateStep, h1, h2]
  | append_singleton ws' m' ih =>
    obtain ⟨hp1, -, hrel⟩ := List.pairwise_append.mp hs
    have hm'm : m' ≤ m := hle m' (by simp)
    have hq := ih m' (fun x hx => hrel x hx m' (by simp)) hp1
    rw [List.foldl_append, hq]
    have hqs : ((ws' ++ [m']).filter (fun x => decide (m' - 1 ≤ x))).Sorted (· ≤ ·) :=
      List.Sorted.filter _ hs
    have hsall : (((ws' ++ [m']).filter (fun x => decide (m' - 1 ≤ x))) ++ [m]).Sorted (· ≤ ·) := by
      refine List.pairwise_append.mpr ⟨hqs, by simp, ?_⟩
      intro a ha b hb
      rw [List.mem_singleton] at hb
      subst hb
      exact hle a (List.mem_of_mem_filter ha)
    show ((_ ++ [m]).dropWhile _) = _
    rw [dropWhile_lt_eq_filter_le (m - 1) _ hsall]
    have hcongr : ∀ x ∈ ws' ++ [m'],
        (decide (m - 1 ≤ x) && decide (m' - 1 ≤ x)) = decide (m - 1 ≤ x) := by
      intro x hx
      by_cases hmx : m - 1 ≤ x
      · have : m' - 1 ≤ x := le_trans (by linarith) hmx
        simp [hmx, this]
      · simp [hmx]
    have hql : List.filter (fun x => decide (m - 1 ≤ x))
          (List.filter (fun x => decide (m' - 1 ≤ x)) (ws' ++ [m']))
        = List.filter (fun x => decide (m - 1 ≤ x)) (ws' ++ [m']) := by
      rw [List.filter_filter]
      exact List.filter_congr hcongr
    conv_lhs => rw [List.filter_append]
    conv_rhs => rw [List.filter_append]
    rw [hql]

/-- Decompose: the rate window after a non-empty sorted run of arrivals
holds exactly the arrivals within one second of the last one. -/
theorem foldl_rateStep_filter (nows : List ℚ) (hne : nows ≠ [])
    (hs : nows.Sorted (· ≤ ·)) :
    (nows.foldl (fun q x => rateStep x q) [])
      = nows.filter (fun x => decide (nows.getLast hne - 1 ≤ x)) := by
  induction nows using List.reverseRecOn with
  | nil => exact absurd rfl hne
  | append_singleton ws m ih =>
    obtain ⟨hp1, -, hrel⟩ := List.pairwise_append.mp hs
    have hle : ∀ x ∈ ws, x ≤ m := fun x hx => hrel x hx m (by simp)
    rw [List.getLast_append_singleton]
    exact foldl_rateStep_sorted ws m hle hp1

theorem statsFold_rateWindow (writes : List (ℚ × ℚ)) (st : StreamState) :
    (writes.foldl (fun s p => statsOnWrite s p.1 p.2) st).rateWindow
      = (writes.map Prod.snd).foldl (fun q x => rateStep x q) st.rateWindow := by
  induction writes generalizing st with
  | nil => rfl
  | cons p tl ih => exact ih (statsOnWrite st p.1 p.2)

theorem statsFold_rate_len (writes : List (ℚ × ℚ)) (st : StreamState)
    (hne : writes ≠ []) :
    (writes.foldl (fun s p => statsOnWrite s p.1 p.2) st).stats.actualSampleRate
      = (writes.foldl (fun s p => statsOnWrite s p.1 p.2) st).rateWindow.length := by
  induction writes using List.reverseRecOn with
  | nil => exact absurd rfl hne
  | append_singleton ws p ih => rw [List.foldl_append]; rfl

theorem sorted_le_getLast (l : List ℚ) (hs : l.Sorted (· ≤ ·)) (hne : l ≠ []) :
    ∀ x ∈ l, x ≤ l.getLast hne := by
  induction l using List.reverseRecOn with
  | nil => exact absurd rfl hne
  | append_singleton ws m ih =>
    obtain ⟨-, -, hrel⟩ := List.pairwise_append.mp hs
    intro x hx
    rw [List.getLast_append_singleton]
    rcases List.mem_append.mp hx with h | h
    · exact hrel x h m (by simp)
    · rw [List.mem_singleton] at h; exact le_of_eq h

theorem getLast_map_snd (l : List (ℚ × ℚ)) (hne : l ≠ [])
    (hne2 : l.map Prod.snd ≠ []) :
    (l.map Prod.snd).getLast hne2 = (l.getLast hne).2 := by
  induction l using List.reverseRecOn with
  | nil => exact absurd rfl hne
  | append_singleton ws m ih =>
    rw [List.getLast_append_singleton]
    have hmap : (ws ++ [m]).map Prod.snd = ws.map Prod.snd ++ [m.2] := by simp
    rw [List.getLast_congr _ _ hmap, List.getLast_append_singleton]

/-- C7: after each accepted write (arrival times non-decreasing, as wall
clock time is), `actualSampleRate` equals the exact number of accepted
writes whose arrival times lie within the trailing one-second window
ending at the current write's arrival time — a sliding-window count. -/
theorem actual_rate_sliding_window (writes : List (ℚ × ℚ)) (hne : writes ≠ [])
    (hmono : (writes.map Prod.snd).Sorted (· ≤ ·)) :
    (writes.foldl (fun s p => statsOnWrite s p.1 p.2) initialStreamState).stats.actualSampleRate
      = ((writes.map Prod.snd).filter
          (fun x => decide ((writes.getLast hne).2 - 1 ≤ x ∧ x ≤ (writes.getLast hne).2))).length := by
  have hne2 : writes.map Prod.snd ≠ [] := by
    simpa using hne
  have hlast : (writes.map Prod.snd).getLast hne2 = (writes.getLast hne).2 :=
    getLast_map_snd writes hne hne2
  rw [statsFold_rate_len writes initialStreamState hne, statsFold_rateWindow]
  show ((writes.map Prod.snd).foldl (fun q x => rateStep x q) []).length = _
  rw [foldl_rateStep_filter (writes.map Prod.snd) hne2 hmono]
  congr 1
  refine List.filter_congr ?_
  intro x hx
  have hxle : x ≤ (writes.map Prod.snd).getLast hne2 :=
    sorted_le_getLast (writes.map Prod.snd) hmono hne2 x hx
  rw [hlast] at hxle
  rw [hlast]
  simp only [decide_eq_decide]
  exact ⟨fun h => ⟨h, hxle⟩, fun h => h.1⟩

/-- Witness for `actual_rate_sliding_window`: 10 writes spaced 50 ms apart;
after the last write the reported rate is exactly 10. -/
theorem actual_rate_sliding_window_witness :
    (([(0, 0), (0, 1/20), (0, 2/20), (0, 3/20), (0, 4/20), (0, 5/20), (0, 6/20),
        (0, 7/20), (0, 8/20), (0, 9/20)] : List (ℚ × ℚ)).foldl
        (fun s p => statsOnWrite s p.1 p.2) initialStreamState).stats.actualSampleRate = 10 := by
  have h := actual_rate_sliding_window
    [(0, 0), (0, 1/20), (0, 2/20), (0, 3/20), (0, 4/20), (0, 5/20), (0, 6/20),
      (0, 7/20), (0, 8/20), (0, 9/20)] (by simp)
    (by norm_num [List.sorted_cons])
  rw [h]
  have hl : (([(0, 0), (0, 1/20), (0, 2/20), (0, 3/20), (0, 4/20), (0, 5/20), (0, 6/20),
      (0, 7/20), (0, 8/20), (0, 9/20)] : List (ℚ × ℚ)).getLast (by simp)).2 = 9/20 := rfl
  rw [hl]
  rw [List.filter_eq_self.mpr ?_]
  · simp
  · intro a ha
    fin_cases ha <;> norm_num

/-- A marker entry for string streams:
`{ timestamp: sample.t, value: values.join(", ") }`. -/
structure MarkerEntry where
  timestamp : ℚ
  value : String
deriving DecidableEq

/-- The marker-stream branch of `onMessage`: append the joined entry, then
keep only the last 500 entries (`next.slice(-500)`) when over the cap. -/
def appendMarker (log : List MarkerEntry) (t : ℚ) (values : List String) : List MarkerEntry :=
  let next := log ++ [⟨t, String.intercalate ", " values⟩]
  if next.length > 500 then next.drop (next.length - 500) else next

/-- The marker log reached from the initial empty state by a sequence of
string-sample events. -/
def markerLog (es : List (ℚ × List String)) : List MarkerEntry :=
  es.foldl (fun log e => appendMarker log e.1 e.2) []

theorem markerLog_append (es : List (ℚ × List String)) (e : ℚ × List String) :
    markerLog (es ++ [e]) = appendMarker (markerLog es) e.1 e.2 := by
  simp [markerLog]

/-- C8: appending `K` marker entries one at a time leaves exactly the last
`min K 500` entries, in their original oldest-to-newest order: the log is
the tail of the full entry sequence past index `K - 500`. -/
theorem marker_log_keeps_last_500 (es : List (ℚ × List String)) :
    markerLog es
      = (es.map (fun e => MarkerEntry.mk e.1 (String.intercalate ", " e.2))).drop
          (es.length - 500) ∧
    (markerLog es).length = min es.length 500 := by
  have main : markerLog es
      = (es.map (fun e => MarkerEntry.mk e.1 (String.intercalate ", " e.2))).drop
          (es.length - 500) := by
    induction es using List.reverseRecOn with
    | nil => rfl
    | append_singleton es e ih =>
      rw [markerLog_append, ih]
      simp only [appendMarker]
      have hlen : (((es.map (fun e => MarkerEntry.mk e.1 (String.intercalate ", " e.2))).drop
          (es.length - 500)) ++ [MarkerEntry.mk e.1 (String.intercalate ", " e.2)]).length
          = min es.length 500 + 1 := by
        simp only [List.length_append, List.length_drop, List.length_map,
          List.length_singleton]
        omega
      rw [hlen]
      by_cases hk : es.length < 500
      · rw [if_neg (by omega)]
        have h1 : es.length - 500 = 0 := by omega
        have h2 : (es ++ [e]).length - 500 = 0 := by
          simp only [List.length_append, List.length_singleton]; omega
        rw [h1, h2]
        simp
      · rw [if_pos (by omega)]
        have h3 : min es.length 500 + 1 - 500 = 1 := by omega
        rw [h3, List.drop_append_of_le_length (by simp; omega), List.drop_drop,
          List.map_append]
        rw [List.drop_append_of_le_length
          (by simp only [List.length_map, List.length_append, List.length_singleton]; omega)]
        have h4 : es.length - 500 + 1 = (es ++ [e]).length - 500 := by
          simp only [List.length_append, List.length_singleton]; omega
        rw [h4]
        simp
  refine ⟨main, ?_⟩
  rw [main]
  simp only [List.length_drop, List.length_map]
  omega

/-- The render-coalescing state of `useStreamData`: the dirty flag
(`dirtyRef`), whether an animation frame is currently requested
(`rafRef.current !== null`), the number of writes applied to the buffer so
far, and the log of buffer versions for which a draw callback has run. -/
structure SchedState where
  dirty : Bool
  rafPending : Bool
  bufferVersion : ℕ
  draws : List ℕ
deriving DecidableEq

/-- `scheduleRender`: request one animation frame if the state is dirty and
no frame is already scheduled. -/
def scheduleRender (s : SchedState) : SchedState :=
  if s.dirty ∧ ¬ s.rafPending then { s with rafPending := true } else s

/-- A write event as seen by the scheduler: the buffer mutates, the state
is marked dirty, and `scheduleRender` runs. -/
def schedWrite (s : SchedState) : SchedState :=
  scheduleRender { s with bufferVersion := s.bufferVersion + 1, dirty := true }

/-- A display refresh: the requested animation-frame callback (if any)
runs — clear both flags and draw the current buffer state. -/
def refreshTick (s : SchedState) : SchedState :=
  if s.rafPending then
    { s with rafPending := false, dirty := false, draws := s.draws ++ [s.bufferVersion] }
  else s

theorem schedWrite_projections (s : SchedState) :
    (schedWrite s).bufferVersion = s.bufferVersion + 1 ∧
    (schedWrite s).dirty = true ∧
    (schedWrite s).rafPending = true ∧
    (schedWrite s).draws = s.draws := by
  by_cases hr : s.rafPending <;> simp [schedWrite, scheduleRender, hr]

theorem schedWrite_iterate (s : SchedState) (n : ℕ) (hn : 1 ≤ n) :
    (schedWrite^[n] s).bufferVersion = s.bufferVersion + n ∧
    (schedWrite^[n] s).dirty = true ∧
    (schedWrite^[n] s).rafPending = true ∧
    (schedWrite^[n] s).draws = s.draws := by
  induction n with
  | zero => omega
  | succ n ih =>
    rw [Function.iterate_succ_apply']
    rcases Nat.eq_or_lt_of_le hn with h1 | h1
    · have h0 : n = 0 := by omega
      subst h0
      simpa using schedWrite_projections s
    · have ihn := ih (by omega)
      obtain ⟨hv, hd, hr, hdr⟩ := ihn
      obtain ⟨pv, pd, pr, pdr⟩ := schedWrite_projections (schedWrite^[n] s)
      exact ⟨by rw [pv, hv]; omega, pd, pr, by rw [pdr, hdr]⟩

/-- C5: starting with no frame pending, `N ≥ 1` writes before the next
refresh callback request exactly one frame; that refresh performs exactly
one draw, showing the buffer state after all `N` writes; a further refresh
with no intervening writes draws nothing (draws never queue or pile up). -/
theorem render_coalescing (s : SchedState) (hraf : s.rafPending = false)
    (n : ℕ) (hn : 1 ≤ n) :
    (schedWrite^[n] s).rafPending = true ∧
    (refreshTick (schedWrite^[n] s)).draws = s.draws ++ [s.bufferVersion + n] ∧
    (refreshTick (schedWrite^[n] s)).rafPending = false ∧
    refreshTick (refreshTick (schedWrite^[n] s)) = refreshTick (schedWrite^[n] s) := by
  obtain ⟨hv, hd, hr, hdr⟩ := schedWrite_iterate s n hn
  refine ⟨hr, ?_, ?_, ?_⟩
  · simp [refreshTick, hr, hdr, hv]
  · simp [refreshTick, hr]
  · have h1 : (refreshTick (schedWrite^[n] s)).rafPending = false := by
      simp [refreshTick, hr]
    conv_lhs => rw [refreshTick, if_neg (by rw [h1]; simp)]

/-- Witness for `render_coalescing`: three writes in one tick, one draw. -/
theorem render_coalescing_witness :
    (schedWrite^[3] (SchedState.mk false false 0 [])).rafPending = true ∧
    (refreshTick (schedWrite^[3] (SchedState.mk false false 0 []))).draws = [] ++ [0 + 3] ∧
    (refreshTick (schedWrite^[3] (SchedState.mk false false 0 []))).rafPending = false ∧
    refreshTick (refreshTick (schedWrite^[3] (SchedState.mk false false 0 [])))
      = refreshTick (schedWrite^[3] (SchedState.mk false false 0 [])) := by
  exact render_coalescing (SchedState.mk false false 0 []) rfl 3 (by omega)

/-- The values of channel `ch` inside the visible window, oldest to newest:
the per-lane scan of `draw` walks the `sampleCount` most recent samples via
`(writeHead - sampleCount + i + bufLen) % bufLen` and skips samples with
`timestamps[idx] < startTime`. -/
def windowValues (b : SampleBuffer) (ch : ℕ) (startTime : ℚ) : List ℚ :=
  (List.range b.sampleCount).filterMap fun i =>
    if startTime ≤ b.timestamps ((b.writeHead + (b.bufferSize - b.sampleCount) + i) % b.bufferSize)
    then some (b.channelBuffers ch
      ((b.writeHead + (b.bufferSize - b.sampleCount) + i) % b.bufferSize))
    else none

/-- The stacked-mode auto-range of one lane (`draw`, stacked branch):
min/max over the windowed samples of the channel; an empty window skips the
lane; a degenerate `min == max` range is widened by ±1; then 10% of the
(possibly widened) range is added as padding on each side. -/
def stackedLaneRange : List ℚ → Option (ℚ × ℚ)
  | [] => none
  | v0 :: rest =>
    let m := rest.foldl min v0
    let M := rest.foldl max v0
    let m1 := if m = M then m - 1 else m
    let M1 := if m = M then M + 1 else M
    let range := M1 - m1
    some (m1 - range * (1/10), M1 + range * (1/10))

theorem foldl_min_const (v : ℚ) (l : List ℚ) (h : ∀ x ∈ l, x = v) :
    l.foldl min v = v := by
  induction l with
  | nil => rfl
  | cons a l ih =>
    have ha : a = v := h a (by simp)
    rw [List.foldl_cons, ha, min_self]
    exact ih fun x hx => h x (by simp [hx])

theorem foldl_max_const (v : ℚ) (l : List ℚ) (h : ∀ x ∈ l, x = v) :
    l.foldl max v = v := by
  induction l with
  | nil => rfl
  | cons a l ih =>
    have ha : a = v := h a (by simp)
    rw [List.foldl_cons, ha, max_self]
    exact ih fun x hx => h x (by simp [hx])

/-- Counterexample to C2: three samples with constant value 5 inside the
window; the computed lane range is `[3.8, 6.2]`, not `[4, 6]` — the 10%
padding is applied after the ±1 degenerate-range expansion as well. -/
theorem stacked_range_counterexample :
    stackedLaneRange
        (windowValues (writeSeq (freshBuffer 4 1) [(1, [5]), (2, [5]), (3, [5])]) 0 0)
      = some (19/5, 31/5) ∧
    stackedLaneRange
        (windowValues (writeSeq (freshBuffer 4 1) [(1, [5]), (2, [5]), (3, [5])]) 0 0)
      ≠ some (4, 6) := by
  have hw : windowValues (writeSeq (freshBuffer 4 1) [(1, [5]), (2, [5]), (3, [5])]) 0 0
      = [5, 5, 5] := by decide
  rw [hw]
  constructor
  · simp only [stackedLaneRange, List.foldl_cons, List.foldl_nil, min_self, max_self]
    norm_num
  · simp only [stackedLaneRange, List.foldl_cons, List.foldl_nil, min_self, max_self]
    norm_num

/-- C2 as amended: in stacked mode, a channel whose every sample in the
visible window equals `v` (window non-empty) gets the auto-range
`[v - 1.2, v + 1.2]`: the degenerate range is first widened to `[v-1, v+1]`
and the 10% padding is then applied to the widened range on each side. -/
theorem stacked_lane_range_constant (b : SampleBuffer) (ch : ℕ) (startTime v : ℚ)
    (hne : windowValues b ch startTime ≠ [])
    (hconst : ∀ x ∈ windowValues b ch startTime, x = v) :
    stackedLaneRange (windowValues b ch startTime) = some (v - 6/5, v + 6/5) := by
  rcases hl : windowValues b ch startTime with - | ⟨v0, rest⟩
  · exact absurd hl hne
  · rw [hl] at hconst
    have hv0 : v0 = v := hconst v0 (by simp)
    have hrest : ∀ x ∈ rest, x = v := fun x hx => hconst x (by simp [hx])
    show some _ = _
    rw [hv0, foldl_min_const v rest hrest, foldl_max_const v rest hrest]
    rw [if_pos rfl, if_pos rfl]
    norm_num
    ring_nf
    exact ⟨trivial, trivial⟩

/-- Witness for `stacked_lane_range_constant`: two in-window samples of
constant value 7 produce the lane range `[5.8, 8.2]`. -/
theorem stacked_lane_range_constant_witness :
    stackedLaneRange (windowValues (writeSeq (freshBuffer 8 1) [(1, [7]), (2, [7])]) 0 0)
      = some (7 - 6/5, 7 + 6/5) :=
  stacked_lane_range_constant (writeSeq (freshBuffer 8 1) [(1, [7]), (2, [7])]) 0 0 7
    (by decide) (by decide)

/-- The outcome of one `TimeSeriesChart.draw` call, after the background
fill: the "Waiting for data..." placeholder, an early return drawing
nothing, or stacked-lane geometry. -/
inductive DrawOutcome
  | waitingForData
  | nothing
  | lanes (activeChannels : List ℕ) (laneHeight : ℚ)
deriving DecidableEq

/-- `Array.from(visibleChannels).filter((i) => i < numChannels).sort()`:
the visible channels restricted to existing ones, sorted.  (JS `.sort()`
compares decimal strings; only membership, emptiness and length of the
result matter below, and those are permutation-invariant.) -/
def activeChannelsOf (numChannels : ℕ) (visibleChannels : List ℕ) : List ℕ :=
  (visibleChannels.filter fun i => decide (i < numChannels)).mergeSort fun a b =>
    decide (a ≤ b)

/-- The control flow of `draw`: empty data
(`sampleCount === 0 || channelBuffers.length === 0`) renders only the
placeholder text; with data but an empty active-channel set the function
returns before any geometry; otherwise stacked lanes are drawn with
per-lane height `plotH / activeChannels.length`. -/
def drawDecision (sampleCount numChannels : ℕ) (visibleChannels : List ℕ)
    (plotH : ℚ) : DrawOutcome :=
  if sampleCount = 0 ∨ numChannels = 0 then DrawOutcome.waitingForData
  else if activeChannelsOf numChannels visibleChannels = [] then DrawOutcome.nothing
  else DrawOutcome.lanes (activeChannelsOf numChannels visibleChannels)
    (plotH / (activeChannelsOf numChannels visibleChannels).length)

/-- C10: with `sampleCount = 0` (or no channel buffers) the renderer
produces only the "no data" placeholder and no geometry; with data but no
visible channels it draws nothing; and whenever lane geometry is produced
the per-lane height divisor (the number of active channels) is positive,
so the division is never evaluated with a zero divisor. -/
theorem draw_empty_state_safe (sampleCount numChannels : ℕ)
    (visibleChannels : List ℕ) (plotH : ℚ) :
    (sampleCount = 0 →
      drawDecision sampleCount numChannels visibleChannels plotH
        = DrawOutcome.waitingForData) ∧
    (numChannels = 0 →
      drawDecision sampleCount numChannels visibleChannels plotH
        = DrawOutcome.waitingForData) ∧
    (visibleChannels = [] → sampleCount ≠ 0 → numChannels ≠ 0 →
      drawDecision sampleCount numChannels visibleChannels plotH
        = DrawOutcome.nothing) ∧
    (∀ active laneH,
      drawDecision sampleCount numChannels visibleChannels plotH
          = DrawOutcome.lanes active laneH →
      0 < active.length ∧ laneH = plotH / active.length) := by
  refine ⟨?_, ?_, ?_, ?_⟩
  · intro h0
    rw [drawDecision, if_pos (Or.inl h0)]
  · intro h0
    rw [drawDecision, if_pos (Or.inr h0)]
  · intro hv hs hn
    subst hv
    have ha : activeChannelsOf numChannels [] = [] := by
      simp [activeChannelsOf]
    rw [drawDecision, if_neg (by tauto), if_pos ha]
  · intro active laneH h
    rw [drawDecision] at h
    by_cases h0 : sampleCount = 0 ∨ numChannels = 0
    · rw [if_pos h0] at h
      exact absurd h (by simp)
    · rw [if_neg h0] at h
      by_cases ha : activeChannelsOf numChannels visibleChannels = []
      · rw [if_pos ha] at h
        exact absurd h (by simp)
      · rw [if_neg ha] at h
        injection h with h1 h2
        subst h1
        exact ⟨List.length_pos.mpr ha, h2.symm⟩

/-- Witness for `draw_empty_state_safe`: the three outcomes at concrete
inputs. -/
theorem draw_empty_state_safe_witness :
    drawDecision 0 3 [0] 100 = DrawOutcome.waitingForData ∧
    drawDecision 5 3 [] 100 = DrawOutcome.nothing ∧
    (0 < ([0, 1] : List ℕ).length ∧ (50 : ℚ) = 100 / ([0, 1] : List ℕ).length) := by
  refine ⟨(draw_empty_state_safe 0 3 [0] 100).1 rfl,
    (draw_empty_state_safe 5 3 [] 100).2.2.1 rfl (by omega) (by omega), ?_⟩
  have hact : activeChannelsOf 2 [0, 1] = [0, 1] := by
    rw [activeChannelsOf]
    rw [show List.filter (fun i => decide (i < 2)) [0, 1] = [0, 1] from by decide]
    exact List.mergeSort_of_sorted (by decide)
  have hdec : drawDecision 5 2 [0, 1] 100 = DrawOutcome.lanes [0, 1] 50 := by
    rw [drawDecision, if_neg (by omega), if_neg (by rw [hact]; simp), hact]
    norm_num
  exact (draw_empty_state_safe 5 2 [0, 1] 100).2.2.2 [0, 1] 50 hdec

/-- The ellipsis string of `fitTextToWidth`. -/
def ellipsis : List Char := ['.', '.', '.']

/-- The binary search of `fitTextToWidth` over prefix lengths: while
`lo < hi`, test `mid = ceil((lo+hi)/2)`; keep `mid` as a lower bound if
`text.slice(0, mid) + "..."` fits within `maxWidth`, else shrink `hi` to
`mid - 1`. -/
def fitLoop (width : List Char → ℚ) (text : List Char) (maxWidth : ℚ)
    (lo hi : ℕ) : ℕ :=
  if lo < hi then
    if width (text.take ((lo + hi + 1) / 2) ++ ellipsis) ≤ maxWidth then
      fitLoop width text maxWidth ((lo + hi + 1) / 2) hi
    else
      fitLoop width text maxWidth lo ((lo + hi + 1) / 2 - 1)
  else lo
termination_by hi - lo
decreasing_by
  · omega
  · omega

/-- `fitTextToWidth(ctx, text, maxWidth)` with `ctx.measureText` abstracted
as a width function over character lists: non-positive budgets give `""`;
text already within budget is returned unchanged; if even `"..."` does not
fit the result is `""`; otherwise the binary search picks the prefix
length. -/
def fitTextToWidth (width : List Char → ℚ) (text : List Char) (maxWidth : ℚ) : List Char :=
  if maxWidth ≤ 0 then []
  else if width text ≤ maxWidth then text
  else if maxWidth < width ellipsis then []
  else text.take (fitLoop width text maxWidth 0 text.length) ++ ellipsis

theorem fitLoop_base (width : List Char → ℚ) (text : List Char) (maxWidth : ℚ)
    (lo hi : ℕ) (h : ¬ lo < hi) : fitLoop width text maxWidth lo hi = lo := by
  unfold fitLoop
  rw [if_neg h]

/-- Correctness of the binary search, by induction on a fuel bound for
`hi - lo`: it returns the largest prefix length in `[lo, hi]` that fits,
provided `lo` fits, nothing above `hi` fits, and measured width is
monotone in prefix length. -/
theorem fitLoop_spec_aux (width : List Char → ℚ) (text : List Char) (maxWidth : ℚ)
    (hmono : ∀ j k : ℕ, j ≤ k →
      width (text.take j ++ ellipsis) ≤ width (text.take k ++ ellipsis)) :
    ∀ fuel lo hi : ℕ, hi - lo ≤ fuel → lo ≤ hi → hi ≤ text.length →
      width (text.take lo ++ ellipsis) ≤ maxWidth →
      (∀ k, hi < k → k ≤ text.length → ¬ width (text.take k ++ ellipsis) ≤ maxWidth) →
      width (text.take (fitLoop width text maxWidth lo hi) ++ ellipsis) ≤ maxWidth ∧
      lo ≤ fitLoop width text maxWidth lo hi ∧
      fitLoop width text maxWidth lo hi ≤ hi ∧
      ∀ k, k ≤ text.length → width (text.take k ++ ellipsis) ≤ maxWidth →
        k ≤ fitLoop width text maxWidth lo hi := by
  intro fuel
  induction fuel with
  | zero =>
    intro lo hi hfuel hlohi hhil hfits hall
    have hnl : ¬ lo < hi := by omega
    rw [fitLoop_base width text maxWidth lo hi hnl]
    refine ⟨hfits, Nat.le_refl lo, hlohi, ?_⟩
    intro k hkl hfit
    by_contra hk
    exact hall k (by omega) hkl hfit
  | succ fuel ih =>
    intro lo hi hfuel hlohi hhil hfits hall
    by_cases h : lo < hi
    · have hmid1 : lo < (lo + hi + 1) / 2 := by omega
      have hmid2 : (lo + hi + 1) / 2 ≤ hi := by omega
      unfold fitLoop
      rw [if_pos h]
      by_cases hfit : width (text.take ((lo + hi + 1) / 2) ++ ellipsis) ≤ maxWidth
      · rw [if_pos hfit]
        have hrec := ih ((lo + hi + 1) / 2) hi (by omega) (by omega) hhil hfit hall
        exact ⟨hrec.1, Nat.le_trans (Nat.le_of_lt hmid1) hrec.2.1, hrec.2.2.1, hrec.2.2.2⟩
      · rw [if_neg hfit]
        have hall' : ∀ k, (lo + hi + 1) / 2 - 1 < k → k ≤ text.length →
            ¬ width (text.take k ++ ellipsis) ≤ maxWidth := by
          intro k hk hkl hcon
          by_cases hk2 : hi < k
          · exact hall k hk2 hkl hcon
          · exact hfit (le_trans (hmono ((lo + hi + 1) / 2) k (by omega)) hcon)
        have hrec := ih lo ((lo + hi + 1) / 2 - 1) (by omega) (by omega) (by omega)
          hfits hall'
        exact ⟨hrec.1, hrec.2.1, by omega, hrec.2.2.2⟩
    · rw [fitLoop_base width text maxWidth lo hi h]
      refine ⟨hfits, Nat.le_refl lo, hlohi, ?_⟩
      intro k hkl hfit
      by_contra hk
      exact hall k (by omega) hkl hfit

/-- C6 as amended: assuming measured width is monotone in prefix length,
`fitTextToWidth` returns `text` unchanged when it fits a positive budget;
it returns `""` when the budget is non-positive, and also when the text
does not fit but even the ellipsis alone exceeds the budget; in the
remaining case it returns the longest prefix-plus-ellipsis that fits. -/
theorem fit_text_to_width_spec (width : List Char → ℚ) (text : List Char) (maxWidth : ℚ)
    (hmono : ∀ j k : ℕ, j ≤ k →
      width (text.take j ++ ellipsis) ≤ width (text.take k ++ ellipsis)) :
    (maxWidth ≤ 0 → fitTextToWidth width text maxWidth = []) ∧
    (0 < maxWidth → width text ≤ maxWidth → fitTextToWidth width text maxWidth = text) ∧
    (0 < maxWidth → ¬ width text ≤ maxWidth → maxWidth < width ellipsis →
      fitTextToWidth width text maxWidth = []) ∧
    (0 < maxWidth → ¬ width text ≤ maxWidth → width ellipsis ≤ maxWidth →
      ∃ p, fitTextToWidth width text maxWidth = text.take p ++ ellipsis ∧
        width (text.take p ++ ellipsis) ≤ maxWidth ∧
        ∀ k, k ≤ text.length → width (text.take k ++ ellipsis) ≤ maxWidth → k ≤ p) := by
  refine ⟨?_, ?_, ?_, ?_⟩
  · intro h0
    rw [fitTextToWidth, if_pos h0]
  · intro h0 h1
    rw [fitTextToWidth, if_neg (not_le.mpr h0), if_pos h1]
  · intro h0 h1 h2
    rw [fitTextToWidth, if_neg (not_le.mpr h0), if_neg h1, if_pos h2]
  · intro h0 h1 h2
    have hfits0 : width (text.take 0 ++ ellipsis) ≤ maxWidth := by
      rw [List.take_zero, List.nil_append]
      exact h2
    have hall : ∀ k, text.length < k → k ≤ text.length →
        ¬ width (text.take k ++ ellipsis) ≤ maxWidth := by
      intro k hk hkl
      omega
    have hspec := fitLoop_spec_aux width text maxWidth hmono text.length 0 text.length
      (by omega) (by omega) (Nat.le_refl _) hfits0 hall
    refine ⟨fitLoop width text maxWidth 0 text.length, ?_, hspec.1, hspec.2.2.2⟩
    rw [fitTextToWidth, if_neg (not_le.mpr h0), if_neg h1, if_neg (not_lt.mpr h2)]

/-- Witness for `fit_text_to_width_spec`: with width = character count, a
two-character label within a budget of 6 is returned unchanged. -/
theorem fit_text_to_width_spec_witness :
    fitTextToWidth (fun l => (l.length : ℚ)) ['a', 'b'] 6 = ['a', 'b'] := by
  refine (fit_text_to_width_spec (fun l => (l.length : ℚ)) ['a', 'b'] 6 ?_).2.1
    (by norm_num) (by norm_num)
  intro j k hjk
  have hlen : (['a', 'b'].take j ++ ellipsis).length ≤ (['a', 'b'].take k ++ ellipsis).length := by
    simp only [List.length_append, List.length_take]
    omega
  show ((List.take j ['a', 'b'] ++ ellipsis).length : ℚ)
    ≤ ((List.take k ['a', 'b'] ++ ellipsis).length : ℚ)
  exact_mod_cast hlen

/-- Counterexample to C6: width = character count (monotone), text `"ab"`
of width 2, budget 1 (positive).  The text does not fit, yet the result is
`""`, which is not `p ++ "..."` for any prefix `p` of the text — the
longest-fitting-prefix clause fails when even the ellipsis alone exceeds
the budget. -/
theorem fit_text_counterexample :
    fitTextToWidth (fun l => (l.length : ℚ)) ['a', 'b'] 1 = [] ∧
    ¬ (((['a', 'b'] : List Char).length : ℚ) ≤ 1) ∧
    (0 : ℚ) < 1 ∧
    fitTextToWidth (fun l => (l.length : ℚ)) ['a', 'b'] 1 ≠ ['a', 'b'].take 0 ++ ellipsis ∧
    fitTextToWidth (fun l => (l.length : ℚ)) ['a', 'b'] 1 ≠ ['a', 'b'].take 1 ++ ellipsis ∧
    fitTextToWidth (fun l => (l.length : ℚ)) ['a', 'b'] 1 ≠ ['a', 'b'].take 2 ++ ellipsis := by
  have hres : fitTextToWidth (fun l => (l.length : ℚ)) ['a', 'b'] 1 = [] := by
    rw [fitTextToWidth, if_neg (by norm_num), if_neg (by norm_num), if_pos (by norm_num [ellipsis])]
  refine ⟨hres, by norm_num, by norm_num, ?_, ?_, ?_⟩ <;> rw [hres] <;> simp [ellipsis]
